import Mathlib

/-!
Verification of the yamlcmt repository: a shallow embedding of the data
model and the operations of the diff pipeline (YAML value trees, the value
comparator, the diff engine, the git-side parsing helpers, the GitHub
reporting helpers and the label policy), with theorems checking the
natural-language specification against it.

Code that lives under src (cmd/yamlcmt/main.go, internal/git/git.go,
internal/github/github.go) is translated directly.  The packages
internal/diff, internal/parser and internal/config are not part of the
provided sources (only their callers and the documentation are), so the
definitions for them are modelled from the specification; each such
definition carries a doc comment starting with "Modelled from the spec".
External collaborators (the yaml decoder, the git process, the file
system, the GitHub API) are passed in as explicit function parameters.
-/

namespace Yamlcmt

/-- A decoded YAML value: scalars, sequences and string-keyed mappings
(the shape produced by decoding into a Go interface value). -/
inductive Yaml where
  | str (s : String)
  | num (n : Int)
  | bool (b : Bool)
  | null
  | seq (items : List Yaml)
  | map (entries : List (String × Yaml))

/-- Association-list lookup, first match wins (Go map indexing). -/
def alook {α : Type} : List (String × α) → String → Option α
  | [], _ => none
  | (k1, v) :: rest, k => if k1 = k then some v else alook rest k

/-- One structural difference, path-addressed (spec section 3). -/
inductive DiffKind where
  | valueChanged
  | keyAdded
  | keyRemoved
  | arrayLengthChanged

/-- A step of a difference path: a map key or a sequence index. -/
inductive PathSeg where
  | key (k : String)
  | idx (i : Nat)

/-- A single difference produced by the value comparator. -/
structure Difference where
  path : List PathSeg
  kind : DiffKind
  oldValue : Option Yaml
  newValue : Option Yaml

/-- Shorthand for a value-changed difference carrying both values. -/
def vchange (path : List PathSeg) (o n : Yaml) : Difference :=
  ⟨path, DiffKind.valueChanged, some o, some n⟩

/-- The keys iterated for a map comparison: union of both key sets,
deduplicated, in lexicographic order (spec section 4.2). -/
def unionKeys (m1 m2 : List (String × Yaml)) : List String :=
  List.insertionSort (fun a b => a ≤ b) ((m1.map Prod.fst ++ m2.map Prod.fst).dedup)

mutual

/-- Modelled from the spec: internal/parser.CompareValues is not under src
(only its callers are); spec section 4.2 gives the algorithm.  Maps recurse
over the lexicographic union of keys, sequences compare index-wise with one
array-length-changed difference when lengths differ, scalars compare by
type-aware value equality, and a kind mismatch is one value-changed
difference with no recursion. -/
def compareValues : Yaml → Yaml → List PathSeg → List Difference
  | Yaml.map m1, Yaml.map m2, path => compareMapKeys (unionKeys m1 m2) m1 m2 path
  | Yaml.seq s1, Yaml.seq s2, path =>
      (if s1.length = s2.length then []
       else [⟨path, DiffKind.arrayLengthChanged,
              some (Yaml.num s1.length), some (Yaml.num s2.length)⟩])
      ++ compareSeqItems s1 s2 path 0
  | Yaml.str a, Yaml.str b, path =>
      if a = b then [] else [vchange path (Yaml.str a) (Yaml.str b)]
  | Yaml.num a, Yaml.num b, path =>
      if a = b then [] else [vchange path (Yaml.num a) (Yaml.num b)]
  | Yaml.bool a, Yaml.bool b, path =>
      if a = b then [] else [vchange path (Yaml.bool a) (Yaml.bool b)]
  | Yaml.null, Yaml.null, _ => []
  | o, n, path => [vchange path o n]
termination_by o n _ => (sizeOf o + sizeOf n, 0)
decreasing_by
  all_goals simp_wf
  · apply Prod.Lex.left; omega
  · apply Prod.Lex.left; omega

/-- Map comparison: walk the listed keys, classifying each as removed,
added, or present on both sides (then recurse). -/
def compareMapKeys : List String → List (String × Yaml) → List (String × Yaml) →
    List PathSeg → List Difference
  | [], _, _, _ => []
  | k :: rest, m1, m2, path =>
    (match h1 : alook m1 k, h2 : alook m2 k with
     | some o, some n => compareValues o n (path ++ [PathSeg.key k])
     | some o, none => [⟨path ++ [PathSeg.key k], DiffKind.keyRemoved, some o, none⟩]
     | none, some n => [⟨path ++ [PathSeg.key k], DiffKind.keyAdded, none, some n⟩]
     | none, none => [])
    ++ compareMapKeys rest m1 m2 path
termination_by ks m1 m2 _ => (sizeOf m1 + sizeOf m2, ks.length + 1)
decreasing_by
  all_goals simp_wf
  · apply Prod.Lex.left
    have H : ∀ (m : List (String × Yaml)) (k2 : String) (v : Yaml),
        alook m k2 = some v → sizeOf v < sizeOf m := by
      intro m
      induction m with
      | nil => intro k2 v hv; simp [alook] at hv
      | cons p rest2 ih =>
        intro k2 v hv
        obtain ⟨k3, v3⟩ := p
        by_cases hk : k3 = k2
        · simp [alook, hk] at hv
          subst hv
          simp
          omega
        · simp [alook, hk] at hv
          have := ih k2 v hv
          simp
          omega
    have := H m1 k o h1
    have := H m2 k n h2
    omega
  · apply Prod.Lex.right
    omega

/-- Sequence comparison: element by element over the common prefix. -/
def compareSeqItems : List Yaml → List Yaml → List PathSeg → Nat → List Difference
  | x :: xs, y :: ys, path, i =>
      compareValues x y (path ++ [PathSeg.idx i]) ++ compareSeqItems xs ys path (i + 1)
  | _, _, _, _ => []
termination_by s1 s2 _ _ => (sizeOf s1 + sizeOf s2, 1)
decreasing_by
  all_goals simp_wf
  · apply Prod.Lex.left; omega
  · apply Prod.Lex.left; omega

end


/-- One parsed YAML document plus provenance, as in internal/parser and
internal/git: Content (the decoded value), Raw (re-serialized text used for
display only) and SourceFile (empty string when provenance is not
tracked). -/
structure Document where
  content : Yaml
  raw : String
  sourceFile : String

mutual

/-- Modelled from the spec: section 4.1 falls back to a "serialization-
derived string of the full document content" for the synthetic identity,
and the git parser re-serializes each decoded document for display; this
canonical serializer stands in for both (a deterministic pure function of
the value). -/
def serializeYaml : Yaml → String
  | Yaml.str s => "s:" ++ s
  | Yaml.num n => "n:" ++ toString n
  | Yaml.bool b => "b:" ++ toString b
  | Yaml.null => "~"
  | Yaml.seq xs => "(" ++ serializeSeq xs ++ ")"
  | Yaml.map m => "(" ++ serializeEntries m ++ ")"
termination_by v => sizeOf v

/-- Serialize the items of a sequence, comma-terminated. -/
def serializeSeq : List Yaml → String
  | [] => ""
  | x :: xs => serializeYaml x ++ "," ++ serializeSeq xs
termination_by xs => sizeOf xs

/-- Serialize the entries of a mapping, comma-terminated. -/
def serializeEntries : List (String × Yaml) → String
  | [] => ""
  | (k, v) :: rest => k ++ ":" ++ serializeYaml v ++ "," ++ serializeEntries rest
termination_by m => sizeOf m

end

/-- Splitting a character list at every occurrence of a separator
character (the semantics of the Go strings.Split / bytes.Split helpers on
a one-character separator): splitting the empty input yields one empty
piece, and each separator occurrence opens a new piece. -/
def splitChar (sep : Char) : List Char → List (List Char)
  | [] => [[]]
  | c :: rest =>
    let r := splitChar sep rest
    if c == sep then [] :: r
    else
      match r with
      | h :: t => (c :: h) :: t
      | [] => [[c]]

/-- Walk a decoded value along a list of nested map keys. -/
def walkPath : Yaml → List String → Option Yaml
  | v, [] => some v
  | Yaml.map m, k :: rest =>
    match alook m k with
    | some v => walkPath v rest
    | none => none
  | _, _ :: _ => none

/-- The string form of a scalar leaf (string, number or bool); none for
maps, sequences and null. -/
def scalarString : Yaml → Option String
  | Yaml.str s => some s
  | Yaml.num n => some (toString n)
  | Yaml.bool b => some (toString b)
  | _ => none

/-- Modelled from the spec: internal/parser.ExtractKey is not under src;
section 4.1 splits the key path on ".", walks the document content as
nested map lookups and falls back to a synthetic serialization-derived
identity when a segment is missing, an intermediate value is not a map, or
the final value is not a scalar.  It never errors. -/
def ExtractKey (content : Yaml) (keyPath : String) : String :=
  let segs := (splitChar '.' keyPath.data).map String.mk
  match walkPath content segs with
  | some v =>
    match scalarString v with
    | some s => s
    | none => serializeYaml content
  | none => serializeYaml content

/-- Modelled from the spec: the diff engine of internal/diff is not under
src; per section 4.3 it is constructed from the configurable identity key
path. -/
structure Engine where
  key : String

/-- Modelled from the spec: diff.NewEngine builds an engine from the key
path given on the command line. -/
def NewEngine (key : String) : Engine := ⟨key⟩

/-- The raw identity of a document under an engine: the identity resolver
applied to the document content. -/
def rawId (e : Engine) (d : Document) : String := ExtractKey d.content e.key

/-- Modelled from the spec: sections 3 and 4.3 — within one document set,
a document whose raw identity collides with that of a document carrying a
different source file gets the identity augmented with its own source
annotation; otherwise the raw identity stands. -/
def effectiveId (e : Engine) (docs : List Document) (d : Document) : String :=
  if docs.any (fun d2 => rawId e d2 == rawId e d && d2.sourceFile != d.sourceFile) then
    rawId e d ++ " (from " ++ d.sourceFile ++ ")"
  else rawId e d

/-- Insert into an association list with Go map assignment semantics:
an existing key has its value replaced in place, a new key is appended. -/
def insertKV {α : Type} (m : List (String × α)) (k : String) (v : α) :
    List (String × α) :=
  if (alook m k).isSome then
    m.map (fun p => if p.1 = k then (k, v) else p)
  else m ++ [(k, v)]

/-- Modelled from the spec: section 4.3 step 1 and 2 — build the
identity-keyed document mapping for one document set, later documents
silently overwriting earlier ones on residual collisions. -/
def makeDocMap (e : Engine) (docs : List Document) : List (String × Document) :=
  docs.foldl (fun m d => insertKV m (effectiveId e docs d) d) []

/-- The aggregate classification of one comparison run (spec section 3):
identity-keyed mappings for added and deleted documents and for the
difference lists of modified documents. -/
structure Result where
  added : List (String × Document)
  deleted : List (String × Document)
  modified : List (String × List Difference)

/-- Modelled from the spec: diff.Engine.Compare per section 4.3 — build
both identity maps, take set differences for added and deleted, and run
the value comparator on identities present in both maps, keeping only
nonempty difference lists. -/
def Engine.Compare (e : Engine) (oldDocs newDocs : List Document) : Result :=
  let oldMap := makeDocMap e oldDocs
  let newMap := makeDocMap e newDocs
  { added := newMap.filter (fun p => (alook oldMap p.1).isNone)
    deleted := oldMap.filter (fun p => (alook newMap p.1).isNone)
    modified := newMap.filterMap (fun p =>
      match alook oldMap p.1 with
      | some od =>
        let ds := compareValues od.content p.2.content []
        if ds.isEmpty then none else some (p.1, ds)
      | none => none) }

/-- The whitespace class trimmed by the Go bytes.TrimSpace call in
internal/git (ASCII whitespace plus the two Latin-1 space runes). -/
def isGoSpace (c : Char) : Bool :=
  c == ' ' || c == '\t' || c == '\n' || c == '\r'
    || c == Char.ofNat 11 || c == Char.ofNat 12
    || c == Char.ofNat 133 || c == Char.ofNat 160

/-- Trim leading and trailing whitespace from a line (bytes.TrimSpace). -/
def trimChars (l : List Char) : List Char :=
  ((l.dropWhile isGoSpace).reverse.dropWhile isGoSpace).reverse

/-- The skipping loop of cleanYAMLContent (internal/git/git.go): while no
real content has been seen, drop comment lines, blank lines and document
separators; from the first other line on, keep every line unchanged. -/
def cleanLoop : List (List Char) → Bool → List (List Char)
  | [], _ => []
  | line :: rest, skipping =>
    if skipping then
      let trimmed := trimChars line
      if trimmed.head? == some '#' then cleanLoop rest true
      else if trimmed.isEmpty then cleanLoop rest true
      else if trimmed == ['-', '-', '-'] then cleanLoop rest true
      else line :: cleanLoop rest false
    else line :: cleanLoop rest false

/-- bytes.Join of lines with a newline separator. -/
def joinLines : List (List Char) → List Char
  | [] => []
  | [l] => l
  | l :: rest => l ++ '\n' :: joinLines rest

/-- cleanYAMLContent from internal/git/git.go: split the content on
newlines, drop the leading run of comment lines, blank lines and document
separators, and join what remains; an input with nothing left yields the
empty content. -/
def cleanYAMLContent (content : String) : String :=
  let lines := splitChar '\n' content.data
  let result := cleanLoop lines true
  if result.isEmpty then String.mk [] else String.mk (joinLines result)

/-- A line the leading cleanup skips: its trimmed form is a comment, is
empty, or is the document separator. -/
def isSkippableLine (line : List Char) : Bool :=
  let t := trimChars line
  t.head? == some '#' || t.isEmpty || t == ['-', '-', '-']

/-- The documents a tracked file contributes: each decoded value with its
re-serialized text and the source file recorded. -/
def mkTrackedDocs (file : String) (vs : List Yaml) : List Document :=
  vs.map (fun v => ⟨v, serializeYaml v, file⟩)

/-- The loop body of ParseFilesWithSourceTracking (internal/git/git.go),
with the external collaborators passed in: gitShow (git show branch:file,
none meaning the file does not exist at that reference), readFile (the
working-tree read, none meaning a read error) and decode (the multi-
document yaml decode of already-cleaned content).  A file absent at the
reference contributes no old-side documents and is not an error; every
other failure aborts with an error. -/
def pfwstGo (gitShow : String → String → Option String)
    (readFile : String → Option String)
    (decode : String → Except String (List Yaml)) (branch : String) :
    List String → List Document × List Document →
      Except String (List Document × List Document)
  | [], acc => Except.ok acc
  | file :: rest, acc =>
    let oldStep : Except String (List Document × List Document) :=
      match gitShow branch file with
      | some out =>
        match decode (cleanYAMLContent out) with
        | Except.ok vs => Except.ok (acc.1 ++ mkTrackedDocs file vs, acc.2)
        | Except.error e =>
          Except.error ("failed to parse old version of " ++ file ++ ": " ++ e)
      | none => Except.ok acc
    match oldStep with
    | Except.error e => Except.error e
    | Except.ok acc2 =>
      match readFile file with
      | none => Except.error ("failed to read " ++ file)
      | some content =>
        match decode (cleanYAMLContent content) with
        | Except.ok vs =>
          pfwstGo gitShow readFile decode branch rest (acc2.1, acc2.2 ++ mkTrackedDocs file vs)
        | Except.error e =>
          Except.error ("failed to parse new version of " ++ file ++ ": " ++ e)

/-- ParseFilesWithSourceTracking from internal/git/git.go over the listed
files, starting from empty document lists. -/
def ParseFilesWithSourceTracking (gitShow : String → String → Option String)
    (readFile : String → Option String)
    (decode : String → Except String (List Yaml))
    (branch : String) (files : List String) :
    Except String (List Document × List Document) :=
  pfwstGo gitShow readFile decode branch files ([], [])

/-- The old-side contribution of one file in the loop of
ParseFilesWithSourceTracking: the documents parsed from the version at the
reference, zero documents (and no error) when the file does not exist at
the reference, and an error when the historical content fails to
decode. -/
def fileOldDocs (gitShow : String → String → Option String)
    (decode : String → Except String (List Yaml))
    (branch : String) (file : String) : Except String (List Document) :=
  match gitShow branch file with
  | some out =>
    match decode (cleanYAMLContent out) with
    | Except.ok vs => Except.ok (mkTrackedDocs file vs)
    | Except.error e =>
      Except.error ("failed to parse old version of " ++ file ++ ": " ++ e)
  | none => Except.ok []

/-- The new-side contribution of one file: the documents parsed from the
current working-tree version, an error when the read or the decode
fails. -/
def fileNewDocs (readFile : String → Option String)
    (decode : String → Except String (List Yaml)) (file : String) :
    Except String (List Document) :=
  match readFile file with
  | none => Except.error ("failed to read " ++ file)
  | some content =>
    match decode (cleanYAMLContent content) with
    | Except.ok vs => Except.ok (mkTrackedDocs file vs)
    | Except.error e =>
      Except.error ("failed to parse new version of " ++ file ++ ": " ++ e)

/-- The per-file decomposition of the parse loop: every file appends its
old-side and new-side contributions in list order, the first error (old
side checked before new side, as in the loop) aborting the whole run. -/
def pfwstPerFile (gitShow : String → String → Option String)
    (readFile : String → Option String)
    (decode : String → Except String (List Yaml)) (branch : String) :
    List String → Except String (List Document × List Document)
  | [] => Except.ok ([], [])
  | file :: rest =>
    match fileOldDocs gitShow decode branch file with
    | Except.error e => Except.error e
    | Except.ok olds =>
      match fileNewDocs readFile decode file with
      | Except.error e => Except.error e
      | Except.ok news =>
        match pfwstPerFile gitShow readFile decode branch rest with
        | Except.error e => Except.error e
        | Except.ok p => Except.ok (olds ++ p.1, news ++ p.2)

/-- Modelled from the spec: diff.Result.HasDifferences is not under src
(only its callers in main.go and github.go are); per section 6 a Result
denotes differences exactly when added, deleted or modified is
nonempty. -/
def HasDifferences (r : Result) : Bool :=
  !r.added.isEmpty || !r.deleted.isEmpty || !r.modified.isEmpty

/-- TemplateData from internal/github/github.go: the variable bag a
comment template renders against. -/
structure TemplateData where
  Summary : String
  Details : String
  HasChanges : Bool
  Added : Nat
  Deleted : Nat
  Modified : Nat
  AddedList : List String
  DeletedList : List String
  ModifiedList : List String
  Link : String
  Vars : List (String × String)
deriving DecidableEq

/-- PrepareTemplateData from internal/github/github.go: counts taken from
the Result at call time, the tfcmt-style Plan summary line, and the three
identity lists extracted from the mappings and sorted. -/
def PrepareTemplateData (result : Result) (details : String) (link : String)
    (vars : List (String × String)) : TemplateData :=
  let added := result.added.length
  let deleted := result.deleted.length
  let modified := result.modified.length
  let summary := "Plan: " ++ toString added ++ " to add, "
    ++ toString deleted ++ " to delete, " ++ toString modified ++ " to modify"
  let addedList := List.insertionSort (fun a b => a ≤ b) (result.added.map Prod.fst)
  let deletedList := List.insertionSort (fun a b => a ≤ b) (result.deleted.map Prod.fst)
  let modifiedList := List.insertionSort (fun a b => a ≤ b) (result.modified.map Prod.fst)
  { Summary := summary
    Details := details
    HasChanges := HasDifferences result
    Added := added
    Deleted := deleted
    Modified := modified
    AddedList := addedList
    DeletedList := deletedList
    ModifiedList := modifiedList
    Link := link
    Vars := vars }

/-- The error outcomes of the GitHub helpers in internal/github/github.go:
a missing token, a malformed repository string, or a failure reported by
the GitHub API client. -/
inductive GHError where
  | noToken
  | invalidRepo (repo : String)
  | api (msg : String)

/-- parseRepo from internal/github/github.go: split on "/" and demand
exactly two parts. -/
def parseRepo (repo : String) : Except GHError (String × String) :=
  match (splitChar '/' repo.data).map String.mk with
  | [owner, name] => Except.ok (owner, name)
  | _ => Except.error (GHError.invalidRepo repo)

/-- getClient from internal/github/github.go, with the GITHUB_TOKEN
environment value passed in explicitly: an empty token is an error. -/
def getClient (token : String) : Except GHError Unit :=
  if token = "" then Except.error GHError.noToken else Except.ok ()

/-- PostComment from internal/github/github.go: build the client, parse
the repository, then call the comment API (passed in as a function). -/
def PostComment (token : String)
    (api : String → String → Int → String → Except String Unit)
    (repo : String) (prNumber : Int) (body : String) : Except GHError Unit :=
  match getClient token with
  | Except.error e => Except.error e
  | Except.ok _ =>
    match parseRepo repo with
    | Except.error e => Except.error e
    | Except.ok (owner, name) =>
      match api owner name prNumber body with
      | Except.ok _ => Except.ok ()
      | Except.error msg => Except.error (GHError.api msg)

/-- AddLabel from internal/github/github.go: an empty label is a silent
success; otherwise build the client, parse the repository and call the
label API with the one label. -/
def AddLabel (token : String)
    (api : String → String → Int → List String → Except String Unit)
    (repo : String) (prNumber : Int) (label : String) : Except GHError Unit :=
  if label = "" then Except.ok ()
  else
    match getClient token with
    | Except.error e => Except.error e
    | Except.ok _ =>
      match parseRepo repo with
      | Except.error e => Except.error e
      | Except.ok (owner, name) =>
        match api owner name prNumber [label] with
        | Except.ok _ => Except.ok ()
        | Except.error msg => Except.error (GHError.api msg)

/-- AddLabels from internal/github/github.go: an empty list, or a list
with only empty labels, is a silent success; otherwise build the client,
parse the repository and call the label API with the nonempty labels. -/
def AddLabels (token : String)
    (api : String → String → Int → List String → Except String Unit)
    (repo : String) (prNumber : Int) (labels : List String) : Except GHError Unit :=
  if labels.isEmpty then Except.ok ()
  else
    let validLabels := labels.filter (fun l => l != "")
    if validLabels.isEmpty then Except.ok ()
    else
      match getClient token with
      | Except.error e => Except.error e
      | Except.ok _ =>
        match parseRepo repo with
        | Except.error e => Except.error e
        | Except.ok (owner, name) =>
          match api owner name prNumber validLabels with
          | Except.ok _ => Except.ok ()
          | Except.error msg => Except.error (GHError.api msg)

/-- Does a helper outcome report the malformed-repository error? -/
def isInvalidRepoError : Except GHError Unit → Bool
  | Except.error (GHError.invalidRepo _) => true
  | _ => false

/-- The four label settings of the compare section of yamlcmt.yaml. -/
structure CompareLabels where
  whenHasAdditions : String
  whenHasDeletions : String
  whenHasModifications : String
  whenNoChanges : String

/-- Modelled from the spec: config.GetLabels of internal/config is not
under src (only its caller in main.go is); per section 6 the three change
labels apply cumulatively from the three count predicates, and the
no-changes label applies alone when all three counts are zero. -/
def GetLabels (cfg : CompareLabels) (added deleted modified : Nat) : List String :=
  if added = 0 ∧ deleted = 0 ∧ modified = 0 then [cfg.whenNoChanges]
  else
    (if added > 0 then [cfg.whenHasAdditions] else [])
    ++ (if deleted > 0 then [cfg.whenHasDeletions] else [])
    ++ (if modified > 0 then [cfg.whenHasModifications] else [])

/-- The label-set computation of handleConfigBasedIntegration in
cmd/yamlcmt/main.go: GetLabels applied to the lengths of the three
mappings of the Result. -/
def labelsForResult (cfg : CompareLabels) (r : Result) : List String :=
  GetLabels cfg r.added.length r.deleted.length r.modified.length

/-- The exit-status logic at the end of CompareCmd.Run in
cmd/yamlcmt/main.go: status 1 when the result has differences, else 0. -/
def runExitCode (r : Result) : Nat :=
  if HasDifferences r then 1 else 0

/-- The document of spec scenario 3: metadata.name is "b". -/
def scenarioDoc : Document :=
  ⟨Yaml.map [("metadata", Yaml.map [("name", Yaml.str "b")])], "", ""⟩

/-- A git-show collaborator for which no file exists at the reference. -/
def gitShowNone : String → String → Option String := fun _ _ => none

/-- A git-show collaborator for a mixed file list: old.yaml exists at the
reference, every other file is new. -/
def gitShowMixed : String → String → Option String :=
  fun _ file => if file = "old.yaml" then some "k: 1" else none

/-- A working-tree read collaborator returning fixed content. -/
def readFileConst : String → Option String := fun _ => some "a: 1"

/-- A decode collaborator returning one fixed document. -/
def decodeConst : String → Except String (List Yaml) :=
  fun _ => Except.ok [Yaml.map [("a", Yaml.num 1)]]

/-- A comment API collaborator that always succeeds. -/
def stubCommentApi : String → String → Int → String → Except String Unit :=
  fun _ _ _ _ => Except.ok ()

/-- A label API collaborator that always succeeds. -/
def stubLabelApi : String → String → Int → List String → Except String Unit :=
  fun _ _ _ _ => Except.ok ()

/-- Two key lists with no key in common. -/
def keysDisjoint (xs ys : List String) : Bool :=
  xs.all (fun k => !(ys.contains k))

/-- An association list whose keys are pairwise distinct. -/
def NodupKeys {α : Type} (m : List (String × α)) : Prop :=
  (m.map Prod.fst).Nodup

/-- A concrete Result with one added identity, used to instantiate
hypotheses of the label-policy and template theorems. -/
def oneAddedResult : Result :=
  ⟨[("x", ⟨Yaml.null, "", ""⟩)], [], []⟩

/-- A concrete label configuration with four distinct labels. -/
def distinctLabels : CompareLabels :=
  ⟨"config-sync/add", "config-sync/destroy", "config-sync/changes", "config-sync/no-changes"⟩

/-- A value found by lookup is structurally smaller than the list it came
from. -/
theorem sizeOf_alook {α : Type} [SizeOf α] {m : List (String × α)} {k : String}
    {v : α} (h : alook m k = some v) : sizeOf v < sizeOf m := by
  induction m with
  | nil => simp [alook] at h
  | cons p rest ih =>
    obtain ⟨k1, v1⟩ := p
    by_cases hk : k1 = k
    · simp [alook, hk] at h
      subst h
      simp
      omega
    · simp [alook, hk] at h
      have := ih h
      simp
      omega

/-- Unfolding a map-key comparison step when the key is on both sides. -/
theorem compareMapKeys_cons_both {m1 m2 : List (String × Yaml)} {k : String}
    {o n : Yaml} (h1 : alook m1 k = some o) (h2 : alook m2 k = some n)
    (rest : List String) (path : List PathSeg) :
    compareMapKeys (k :: rest) m1 m2 path =
      compareValues o n (path ++ [PathSeg.key k]) ++ compareMapKeys rest m1 m2 path := by
  rw [compareMapKeys]
  congr 1
  split <;> simp_all

/-- Unfolding a map-key comparison step when the key is on neither side. -/
theorem compareMapKeys_cons_neither {m1 m2 : List (String × Yaml)} {k : String}
    (h1 : alook m1 k = none) (h2 : alook m2 k = none)
    (rest : List String) (path : List PathSeg) :
    compareMapKeys (k :: rest) m1 m2 path = compareMapKeys rest m1 m2 path := by
  rw [compareMapKeys]
  have : (match h1 : alook m1 k, h2 : alook m2 k with
     | some o, some n => compareValues o n (path ++ [PathSeg.key k])
     | some o, none => [⟨path ++ [PathSeg.key k], DiffKind.keyRemoved, some o, none⟩]
     | none, some n => [⟨path ++ [PathSeg.key k], DiffKind.keyAdded, none, some n⟩]
     | none, none => ([] : List Difference)) = [] := by
    split <;> simp_all
  rw [this, List.nil_append]

/-- Comparing a sequence with itself yields nothing, given that each
element compares clean against itself. -/
theorem compareSeqItems_self {s : List Yaml}
    (h : ∀ x ∈ s, ∀ p, compareValues x x p = []) :
    ∀ (path : List PathSeg) (i : Nat), compareSeqItems s s path i = [] := by
  induction s with
  | nil => intro path i; simp [compareSeqItems]
  | cons x xs ih =>
    intro path i
    rw [compareSeqItems]
    rw [h x (by simp) (path ++ [PathSeg.idx i])]
    simp only [List.nil_append]
    exact ih (fun y hy => h y (by simp [hy])) path (i + 1)

/-- Walking any key list over one and the same map yields nothing, given
that each stored value compares clean against itself. -/
theorem compareMapKeys_self {m : List (String × Yaml)}
    (h : ∀ k v, alook m k = some v → ∀ p, compareValues v v p = []) :
    ∀ (ks : List String) (path : List PathSeg), compareMapKeys ks m m path = [] := by
  intro ks
  induction ks with
  | nil => intro path; rw [compareMapKeys]
  | cons k rest ih =>
    intro path
    cases hl : alook m k with
    | some v =>
      rw [compareMapKeys_cons_both hl hl rest path, h k v hl, List.nil_append]
      exact ih path
    | none =>
      rw [compareMapKeys_cons_neither hl hl rest path]
      exact ih path

/-- Value Comparator round-trip (spec section 8): comparing a decoded
value with itself produces no differences. -/
theorem compareValues_self (v : Yaml) : ∀ p, compareValues v v p = [] := by
  suffices h : ∀ (n : Nat) (v : Yaml), sizeOf v ≤ n → ∀ p, compareValues v v p = [] by
    exact h (sizeOf v) v (Nat.le_refl _)
  intro n
  induction n with
  | zero =>
    intro v hv
    exfalso
    cases v <;> simp at hv
  | succ n ih =>
    intro v hv p
    cases v with
    | str s => simp [compareValues]
    | num x => simp [compareValues]
    | bool b => simp [compareValues]
    | null => simp [compareValues]
    | seq s =>
      rw [compareValues]
      simp only [if_pos rfl, List.nil_append]
      apply compareSeqItems_self
      intro x hx p2
      apply ih x _ p2
      have hlt := List.sizeOf_lt_of_mem hx
      have : sizeOf (Yaml.seq s) = 1 + sizeOf s := by simp
      omega
    | map m =>
      rw [compareValues]
      apply compareMapKeys_self
      intro k w hw p2
      apply ih w _ p2
      have hlt := sizeOf_alook hw
      have : sizeOf (Yaml.map m) = 1 + sizeOf m := by simp
      omega

theorem mem_of_alook {α : Type} {m : List (String × α)} {k : String} {v : α}
    (h : alook m k = some v) : (k, v) ∈ m := by
  induction m with
  | nil => simp [alook] at h
  | cons p rest ih =>
    obtain ⟨k1, v1⟩ := p
    by_cases hk : k1 = k
    · simp [alook, hk] at h
      simp [hk, h]
    · simp [alook, hk] at h
      simp [ih h]

theorem alook_isSome_of_mem {α : Type} {m : List (String × α)} {k : String} {v : α}
    (h : (k, v) ∈ m) : (alook m k).isSome := by
  induction m with
  | nil => simp at h
  | cons p rest ih =>
    obtain ⟨k1, v1⟩ := p
    rcases List.mem_cons.mp h with h1 | h2
    · have : k1 = k := by cases h1; rfl
      simp [alook, this]
    · by_cases hk : k1 = k
      · simp [alook, hk]
      · simp [alook, hk]
        exact ih h2

theorem mem_keys_iff_isSome {α : Type} {m : List (String × α)} {k : String} :
    k ∈ m.map Prod.fst ↔ (alook m k).isSome := by
  constructor
  · intro h
    obtain ⟨p, hp, hk⟩ := List.mem_map.mp h
    obtain ⟨k1, v1⟩ := p
    cases hk
    exact alook_isSome_of_mem hp
  · intro h
    obtain ⟨v, hv⟩ := Option.isSome_iff_exists.mp h
    exact List.mem_map.mpr ⟨(k, v), mem_of_alook hv, rfl⟩

theorem alook_eq_of_mem_nodup {α : Type} {m : List (String × α)} {k : String} {v : α}
    (hnd : NodupKeys m) (h : (k, v) ∈ m) : alook m k = some v := by
  induction m with
  | nil => simp at h
  | cons p rest ih =>
    obtain ⟨k1, v1⟩ := p
    have hnd2 : NodupKeys rest := (List.nodup_cons.mp hnd).2
    have hnotin : k1 ∉ rest.map Prod.fst := (List.nodup_cons.mp hnd).1
    rcases List.mem_cons.mp h with h1 | h2
    · cases h1
      simp [alook]
    · by_cases hk : k1 = k
      · exfalso
        apply hnotin
        subst hk
        exact List.mem_map.mpr ⟨(k1, v), h2, rfl⟩
      · simp [alook, hk]
        exact ih hnd2 h2

theorem keys_insertKV {α : Type} (m : List (String × α)) (k : String) (v : α) :
    (insertKV m k v).map Prod.fst =
      if (alook m k).isSome then m.map Prod.fst else m.map Prod.fst ++ [k] := by
  unfold insertKV
  by_cases h : (alook m k).isSome
  · rw [if_pos h, if_pos h, List.map_map]
    apply List.map_congr_left
    intro p _
    by_cases hp : p.1 = k
    · simp [hp]
    · simp [hp]
  · rw [if_neg h, if_neg h]
    simp

theorem nodupKeys_insertKV {α : Type} {m : List (String × α)} (k : String) (v : α)
    (hnd : NodupKeys m) : NodupKeys (insertKV m k v) := by
  unfold NodupKeys
  rw [keys_insertKV]
  by_cases h : (alook m k).isSome
  · rw [if_pos h]
    exact hnd
  · rw [if_neg h]
    have hk : k ∉ m.map Prod.fst := fun hc => h (mem_keys_iff_isSome.mp hc)
    refine List.Nodup.append hnd (List.nodup_singleton k) ?_
    intro a ha hb
    rw [List.mem_singleton.mp hb] at ha
    exact hk ha

theorem nodupKeys_makeDocMap (e : Engine) (docs : List Document) :
    NodupKeys (makeDocMap e docs) := by
  unfold makeDocMap
  suffices h : ∀ (fs : List Document) (m : List (String × Document)), NodupKeys m →
      NodupKeys (fs.foldl (fun m2 d => insertKV m2 (effectiveId e docs d) d) m) by
    exact h docs [] (by simp [NodupKeys])
  intro fs
  induction fs with
  | nil => intro m hm; exact hm
  | cons d rest ih =>
    intro m hm
    exact ih _ (nodupKeys_insertKV _ _ hm)

/-- C1: the process exit contract of the compare command.  A run that completes
without a boundary error exits with the code runExitCode of the computed
Result: nonzero (namely 1) exactly when added, deleted or modified is
nonempty, and zero exactly when all three mappings are empty. -/
theorem exitCode_spec (r : Result) :
    (runExitCode r = 0 ∨ runExitCode r = 1)
    ∧ (runExitCode r = 0 ↔ (r.added = [] ∧ r.deleted = [] ∧ r.modified = []))
    ∧ (runExitCode r = 1 ↔ (r.added ≠ [] ∨ r.deleted ≠ [] ∨ r.modified ≠ [])) := by
  unfold runExitCode HasDifferences
  rcases r with ⟨a, d, m⟩
  rcases a <;> rcases d <;> rcases m <;> simp

/-- C3: symmetry of classification.  For any two document sets A and B the
identities added by compare(A,B) are exactly the identities deleted by
compare(B,A), and the identities deleted by compare(A,B) are exactly the
identities added by compare(B,A). -/
theorem compare_symmetry_spec (e : Engine) (A B : List Document) :
    ((e.Compare A B).added.map Prod.fst = (e.Compare B A).deleted.map Prod.fst)
    ∧ ((e.Compare A B).deleted.map Prod.fst = (e.Compare B A).added.map Prod.fst) :=
  ⟨rfl, rfl⟩

/-- C4: idempotence.  Comparing a document set with itself yields the
Result with empty added, deleted and modified mappings. -/
theorem compare_self_spec (e : Engine) (docs : List Document) :
    e.Compare docs docs = ⟨[], [], []⟩ := by
  have hnd := nodupKeys_makeDocMap e docs
  show Engine.Compare e docs docs = Result.mk [] [] []
  unfold Engine.Compare
  simp only [Result.mk.injEq]
  refine ⟨?_, ?_, ?_⟩
  · rw [List.filter_eq_nil_iff]
    intro p hp
    have hs : (alook (makeDocMap e docs) p.1).isSome := alook_isSome_of_mem (by simpa using hp)
    simp only [Option.isNone_iff_eq_none]
    intro hc
    rw [hc] at hs
    simp at hs
  · rw [List.filter_eq_nil_iff]
    intro p hp
    have hs : (alook (makeDocMap e docs) p.1).isSome := alook_isSome_of_mem (by simpa using hp)
    simp only [Option.isNone_iff_eq_none]
    intro hc
    rw [hc] at hs
    simp at hs
  · rw [List.filterMap_eq_nil_iff]
    intro p hp
    have : alook (makeDocMap e docs) p.1 = some p.2 := alook_eq_of_mem_nodup hnd (by simpa using hp)
    simp [this, compareValues_self]

theorem compare_added_eq (e : Engine) (A B : List Document) :
    (e.Compare A B).added
      = (makeDocMap e B).filter (fun p => (alook (makeDocMap e A) p.1).isNone) := rfl

theorem compare_deleted_eq (e : Engine) (A B : List Document) :
    (e.Compare A B).deleted
      = (makeDocMap e A).filter (fun p => (alook (makeDocMap e B) p.1).isNone) := rfl

theorem compare_modified_eq (e : Engine) (A B : List Document) :
    (e.Compare A B).modified
      = (makeDocMap e B).filterMap (fun p =>
          match alook (makeDocMap e A) p.1 with
          | some od =>
            let ds := compareValues od.content p.2.content []
            if ds.isEmpty then none else some (p.1, ds)
          | none => none) := rfl

theorem compare_added_keys (e : Engine) (A B : List Document) (k : String) :
    k ∈ (e.Compare A B).added.map Prod.fst ↔
      ((alook (makeDocMap e A) k).isNone ∧ (alook (makeDocMap e B) k).isSome) := by
  rw [compare_added_eq]
  constructor
  · intro h
    obtain ⟨p, hp, hk⟩ := List.mem_map.mp h
    rw [List.mem_filter] at hp
    obtain ⟨hpm, hpred⟩ := hp
    subst hk
    refine ⟨by simpa using hpred, ?_⟩
    exact alook_isSome_of_mem (show (p.1, p.2) ∈ _ by simpa using hpm)
  · rintro ⟨hN, hS⟩
    obtain ⟨v, hv⟩ := Option.isSome_iff_exists.mp hS
    apply List.mem_map.mpr
    refine ⟨(k, v), ?_, rfl⟩
    rw [List.mem_filter]
    exact ⟨mem_of_alook hv, by simpa using hN⟩

theorem compare_deleted_keys (e : Engine) (A B : List Document) (k : String) :
    k ∈ (e.Compare A B).deleted.map Prod.fst ↔
      ((alook (makeDocMap e A) k).isSome ∧ (alook (makeDocMap e B) k).isNone) := by
  rw [compare_deleted_eq]
  constructor
  · intro h
    obtain ⟨p, hp, hk⟩ := List.mem_map.mp h
    rw [List.mem_filter] at hp
    obtain ⟨hpm, hpred⟩ := hp
    subst hk
    refine ⟨?_, by simpa using hpred⟩
    exact alook_isSome_of_mem (show (p.1, p.2) ∈ _ by simpa using hpm)
  · rintro ⟨hS, hN⟩
    obtain ⟨v, hv⟩ := Option.isSome_iff_exists.mp hS
    apply List.mem_map.mpr
    refine ⟨(k, v), ?_, rfl⟩
    rw [List.mem_filter]
    exact ⟨mem_of_alook hv, by simpa using hN⟩

theorem compare_modified_keys (e : Engine) (A B : List Document) (k : String) :
    k ∈ (e.Compare A B).modified.map Prod.fst ↔
      ∃ od nd, alook (makeDocMap e A) k = some od ∧ alook (makeDocMap e B) k = some nd
        ∧ (compareValues od.content nd.content []).isEmpty = false := by
  have hndB := nodupKeys_makeDocMap e B
  rw [compare_modified_eq]
  constructor
  · intro h
    obtain ⟨q, hq, hkq⟩ := List.mem_map.mp h
    obtain ⟨p, hpm, hfp⟩ := List.mem_filterMap.mp hq
    cases hod : alook (makeDocMap e A) p.1 with
    | none => rw [hod] at hfp; simp at hfp
    | some od =>
      rw [hod] at hfp
      by_cases hemp : (compareValues od.content p.2.content []).isEmpty
      · simp [hemp] at hfp
      · simp only [hemp] at hfp
        rw [if_neg (by simpa using hemp)] at hfp
        have hq1 : q = (p.1, compareValues od.content p.2.content []) := by
          exact (Option.some_injective _ hfp).symm
        subst hq1
        simp only at hkq
        subst hkq
        refine ⟨od, p.2, hod, ?_, by simpa using hemp⟩
        exact alook_eq_of_mem_nodup hndB (by simpa using hpm)
  · rintro ⟨od, nd, hod, hnd, hne⟩
    apply List.mem_map.mpr
    refine ⟨(k, compareValues od.content nd.content []), ?_, rfl⟩
    apply List.mem_filterMap.mpr
    refine ⟨(k, nd), mem_of_alook hnd, ?_⟩
    simp only [hod, hne]
    rw [if_neg (by simp [hne])]

theorem keysDisjoint_iff (xs ys : List String) :
    keysDisjoint xs ys = true ↔ ∀ k ∈ xs, k ∉ ys := by
  simp [keysDisjoint]

/-- C2: the Result partition invariant.  The key-sets of added, deleted
and modified are pairwise disjoint, and an identity is in their union
exactly when it is observed in one of the two identity maps and is
classified as added (new only), deleted (old only), or changed (present on
both sides with a nonempty difference list); an identity present on both
sides with an empty difference list therefore appears nowhere. -/
theorem compare_partition_spec (e : Engine) (A B : List Document) :
    (keysDisjoint ((e.Compare A B).added.map Prod.fst) ((e.Compare A B).deleted.map Prod.fst) = true
      ∧ keysDisjoint ((e.Compare A B).added.map Prod.fst) ((e.Compare A B).modified.map Prod.fst) = true
      ∧ keysDisjoint ((e.Compare A B).deleted.map Prod.fst) ((e.Compare A B).modified.map Prod.fst) = true)
    ∧ (∀ k : String,
        (k ∈ (e.Compare A B).added.map Prod.fst ∨ k ∈ (e.Compare A B).deleted.map Prod.fst
          ∨ k ∈ (e.Compare A B).modified.map Prod.fst)
        ↔ ((k ∈ (makeDocMap e A).map Prod.fst ∨ k ∈ (makeDocMap e B).map Prod.fst)
           ∧ (((alook (makeDocMap e A) k).isNone ∧ (alook (makeDocMap e B) k).isSome)
              ∨ ((alook (makeDocMap e A) k).isSome ∧ (alook (makeDocMap e B) k).isNone)
              ∨ (∃ od nd, alook (makeDocMap e A) k = some od ∧ alook (makeDocMap e B) k = some nd
                  ∧ (compareValues od.content nd.content []).isEmpty = false)))) := by
  refine ⟨⟨?_, ?_, ?_⟩, ?_⟩
  · rw [keysDisjoint_iff]
    intro k hk hk2
    obtain ⟨hN, _⟩ := (compare_added_keys e A B k).mp hk
    obtain ⟨hS, _⟩ := (compare_deleted_keys e A B k).mp hk2
    rw [Option.isNone_iff_eq_none.mp hN] at hS
    simp at hS
  · rw [keysDisjoint_iff]
    intro k hk hk2
    obtain ⟨hN, _⟩ := (compare_added_keys e A B k).mp hk
    obtain ⟨od, nd, hod, _, _⟩ := (compare_modified_keys e A B k).mp hk2
    rw [Option.isNone_iff_eq_none.mp hN] at hod
    simp at hod
  · rw [keysDisjoint_iff]
    intro k hk hk2
    obtain ⟨_, hN⟩ := (compare_deleted_keys e A B k).mp hk
    obtain ⟨od, nd, _, hnd, _⟩ := (compare_modified_keys e A B k).mp hk2
    rw [Option.isNone_iff_eq_none.mp hN] at hnd
    simp at hnd
  · intro k
    constructor
    · intro h
      rcases h with h | h | h
      · obtain ⟨hN, hS⟩ := (compare_added_keys e A B k).mp h
        exact ⟨Or.inr (mem_keys_iff_isSome.mpr hS), Or.inl ⟨hN, hS⟩⟩
      · obtain ⟨hS, hN⟩ := (compare_deleted_keys e A B k).mp h
        exact ⟨Or.inl (mem_keys_iff_isSome.mpr hS), Or.inr (Or.inl ⟨hS, hN⟩)⟩
      · obtain ⟨od, nd, hod, hnd, hne⟩ := (compare_modified_keys e A B k).mp h
        refine ⟨Or.inr (mem_keys_iff_isSome.mpr (by simp [hnd])), ?_⟩
        exact Or.inr (Or.inr ⟨od, nd, hod, hnd, hne⟩)
    · rintro ⟨_, hclass⟩
      rcases hclass with h | h | h
      · exact Or.inl ((compare_added_keys e A B k).mpr h)
      · exact Or.inr (Or.inl ((compare_deleted_keys e A B k).mpr h))
      · exact Or.inr (Or.inr ((compare_modified_keys e A B k).mpr h))

theorem cleanLoop_false (lines : List (List Char)) : cleanLoop lines false = lines := by
  induction lines with
  | nil => rfl
  | cons l rest ih => simp [cleanLoop, ih]

theorem cleanLoop_true (lines : List (List Char)) :
    cleanLoop lines true = lines.dropWhile isSkippableLine := by
  induction lines with
  | nil => rfl
  | cons l rest ih =>
    simp only [cleanLoop, List.dropWhile_cons]
    by_cases h1 : (trimChars l).head? == some '#'
    · simp [isSkippableLine, h1, ih]
    · by_cases h2 : (trimChars l).isEmpty
      · simp [isSkippableLine, h1, h2, ih]
      · by_cases h3 : trimChars l == ['-', '-', '-']
        · simp [isSkippableLine, h1, h2, h3, ih]
        · simp [isSkippableLine, h1, h2, h3, cleanLoop_false]

/-- C9: cleanYAMLContent removes exactly the leading run of lines whose
trimmed form is a comment, empty, or the document separator, and keeps
every line from the first other line onward unchanged (joined by
newlines); when every line is in the leading run nothing is left and the
result is the empty content. -/
theorem cleanYAMLContent_spec (content : String) :
    cleanYAMLContent content =
      String.mk (joinLines ((splitChar '\n' content.data).dropWhile isSkippableLine)) := by
  simp only [cleanYAMLContent, cleanLoop_true]
  by_cases h : ((splitChar '\n' content.data).dropWhile isSkippableLine).isEmpty
  · rw [if_pos h]
    rw [List.isEmpty_iff.mp h]
    rfl
  · rw [if_neg h]

theorem pfwstGo_perFile (gitShow : String → String → Option String)
    (readFile : String → Option String)
    (decode : String → Except String (List Yaml)) (branch : String) :
    ∀ (files : List String) (accOld accNew : List Document),
      pfwstGo gitShow readFile decode branch files (accOld, accNew)
        = (pfwstPerFile gitShow readFile decode branch files).map
            (fun p => (accOld ++ p.1, accNew ++ p.2)) := by
  intro files
  induction files with
  | nil =>
    intro aO aN
    simp [pfwstGo, pfwstPerFile, Except.map]
  | cons f rest ih =>
    intro aO aN
    simp only [pfwstGo, pfwstPerFile, fileOldDocs, fileNewDocs]
    cases hg : gitShow branch f with
    | some out =>
      dsimp only
      cases hdo : decode (cleanYAMLContent out) with
      | error e => rfl
      | ok vs =>
        dsimp only
        cases hr : readFile f with
        | none => rfl
        | some c =>
          dsimp only
          cases hdn : decode (cleanYAMLContent c) with
          | error e => rfl
          | ok ws =>
            dsimp only
            rw [ih]
            cases hrest : pfwstPerFile gitShow readFile decode branch rest with
            | error e => rfl
            | ok p => simp [Except.map, List.append_assoc]
    | none =>
      dsimp only
      cases hr : readFile f with
      | none => rfl
      | some c =>
        dsimp only
        cases hdn : decode (cleanYAMLContent c) with
        | error e => rfl
        | ok ws =>
          dsimp only
          rw [ih]
          cases hrest : pfwstPerFile gitShow readFile decode branch rest with
          | error e => rfl
          | ok p => simp [Except.map, List.append_assoc]

/-- C5: for every branch and file list, the run decomposes into per-file
contributions appended in order, and a file whose content retrieval at
the reference fails (git show returns none) contributes zero old-side
documents without this being an error, while its current version is
still parsed into that file's new-side documents.  This holds per file,
also amid other files that do exist at the reference. -/
theorem parseFiles_newfile_spec (gitShow : String → String → Option String)
    (readFile : String → Option String)
    (decode : String → Except String (List Yaml))
    (branch : String) (files : List String) (f : String)
    (hf : f ∈ files) (hnew : gitShow branch f = none) :
    ParseFilesWithSourceTracking gitShow readFile decode branch files
      = pfwstPerFile gitShow readFile decode branch files
    ∧ fileOldDocs gitShow decode branch f = Except.ok []
    ∧ (∀ c vs, readFile f = some c → decode (cleanYAMLContent c) = Except.ok vs →
        fileNewDocs readFile decode f = Except.ok (mkTrackedDocs f vs)) := by
  refine ⟨?_, ?_, ?_⟩
  · unfold ParseFilesWithSourceTracking
    rw [pfwstGo_perFile]
    cases hres : pfwstPerFile gitShow readFile decode branch files with
    | error e => rfl
    | ok p => simp [Except.map]
  · simp [fileOldDocs, hnew]
  · intro c vs hc hvs
    simp [fileNewDocs, hc, hvs]

theorem parseFiles_newfile_spec_witness :
    ("new.yaml" ∈ ["old.yaml", "new.yaml"])
    ∧ gitShowMixed "main" "new.yaml" = none
    ∧ (ParseFilesWithSourceTracking gitShowMixed readFileConst decodeConst "main"
          ["old.yaml", "new.yaml"]
        = pfwstPerFile gitShowMixed readFileConst decodeConst "main" ["old.yaml", "new.yaml"]
      ∧ fileOldDocs gitShowMixed decodeConst "main" "new.yaml" = Except.ok []
      ∧ (∀ c vs, readFileConst "new.yaml" = some c →
          decodeConst (cleanYAMLContent c) = Except.ok vs →
          fileNewDocs readFileConst decodeConst "new.yaml"
            = Except.ok (mkTrackedDocs "new.yaml" vs)))
    ∧ ParseFilesWithSourceTracking gitShowMixed readFileConst decodeConst "main"
          ["old.yaml", "new.yaml"]
        = Except.ok
            ([⟨Yaml.map [("a", Yaml.num 1)], serializeYaml (Yaml.map [("a", Yaml.num 1)]),
                "old.yaml"⟩],
             [⟨Yaml.map [("a", Yaml.num 1)], serializeYaml (Yaml.map [("a", Yaml.num 1)]),
                "old.yaml"⟩,
              ⟨Yaml.map [("a", Yaml.num 1)], serializeYaml (Yaml.map [("a", Yaml.num 1)]),
                "new.yaml"⟩]) :=
  ⟨by decide, rfl,
   parseFiles_newfile_spec gitShowMixed readFileConst decodeConst "main"
     ["old.yaml", "new.yaml"] "new.yaml" (by decide) rfl,
   rfl⟩

/-- C6: the label policy.  With pairwise distinct configured labels, the
labels computed from a Result carry the has-additions label exactly when
added is nonempty, the has-deletions label exactly when deleted is
nonempty, the has-modifications label exactly when modified is nonempty,
and the no-changes label exactly (and as the only label) when all three
mappings are empty. -/
theorem labels_policy_spec (cfg : CompareLabels) (r : Result)
    (hnd : List.Nodup [cfg.whenHasAdditions, cfg.whenHasDeletions,
      cfg.whenHasModifications, cfg.whenNoChanges]) :
    ((r.added = [] ∧ r.deleted = [] ∧ r.modified = []) →
        labelsForResult cfg r = [cfg.whenNoChanges])
    ∧ (cfg.whenHasAdditions ∈ labelsForResult cfg r ↔ r.added ≠ [])
    ∧ (cfg.whenHasDeletions ∈ labelsForResult cfg r ↔ r.deleted ≠ [])
    ∧ (cfg.whenHasModifications ∈ labelsForResult cfg r ↔ r.modified ≠ [])
    ∧ (cfg.whenNoChanges ∈ labelsForResult cfg r
        ↔ (r.added = [] ∧ r.deleted = [] ∧ r.modified = [])) := by
  simp only [List.nodup_cons, List.mem_cons, List.mem_singleton, List.not_mem_nil] at hnd
  obtain ⟨⟨had, ham, han⟩, ⟨hdm, hdn⟩, hmn⟩ :
      (cfg.whenHasAdditions ≠ cfg.whenHasDeletions ∧ cfg.whenHasAdditions ≠ cfg.whenHasModifications
        ∧ cfg.whenHasAdditions ≠ cfg.whenNoChanges)
      ∧ (cfg.whenHasDeletions ≠ cfg.whenHasModifications ∧ cfg.whenHasDeletions ≠ cfg.whenNoChanges)
      ∧ (cfg.whenHasModifications ≠ cfg.whenNoChanges) := by
    tauto
  rcases r with ⟨a, d, m⟩
  by_cases ha : a = [] <;> by_cases hd : d = [] <;> by_cases hm : m = [] <;>
    simp_all [labelsForResult, GetLabels, List.length_eq_zero, List.length_pos,
      Ne.symm had, Ne.symm ham, Ne.symm han, Ne.symm hdm, Ne.symm hdn, Ne.symm hmn]

theorem labels_policy_spec_witness :
    List.Nodup [distinctLabels.whenHasAdditions, distinctLabels.whenHasDeletions,
      distinctLabels.whenHasModifications, distinctLabels.whenNoChanges]
    ∧ (((oneAddedResult.added = [] ∧ oneAddedResult.deleted = [] ∧ oneAddedResult.modified = []) →
          labelsForResult distinctLabels oneAddedResult = [distinctLabels.whenNoChanges])
      ∧ (distinctLabels.whenHasAdditions ∈ labelsForResult distinctLabels oneAddedResult
          ↔ oneAddedResult.added ≠ [])
      ∧ (distinctLabels.whenHasDeletions ∈ labelsForResult distinctLabels oneAddedResult
          ↔ oneAddedResult.deleted ≠ [])
      ∧ (distinctLabels.whenHasModifications ∈ labelsForResult distinctLabels oneAddedResult
          ↔ oneAddedResult.modified ≠ [])
      ∧ (distinctLabels.whenNoChanges ∈ labelsForResult distinctLabels oneAddedResult
          ↔ (oneAddedResult.added = [] ∧ oneAddedResult.deleted = [] ∧ oneAddedResult.modified = []))) :=
  ⟨by decide, labels_policy_spec distinctLabels oneAddedResult (by decide)⟩

/-- C7: PrepareTemplateData renders the summary exactly as the string
"Plan: A to add, D to delete, M to modify" from the sizes of the three
mappings of the Result, at call time; and on spec scenario 3 (old empty,
new one document with metadata.name b) the result has exactly the added
identity b and the summary reads "Plan: 1 to add, 0 to delete, 0 to
modify". -/
theorem template_summary_spec (r : Result) (details link : String)
    (vars : List (String × String)) :
    ((PrepareTemplateData r details link vars).Summary
      = "Plan: " ++ toString r.added.length ++ " to add, "
        ++ toString r.deleted.length ++ " to delete, "
        ++ toString r.modified.length ++ " to modify")
    ∧ ((NewEngine "metadata.name").Compare [] [scenarioDoc]).added = [("b", scenarioDoc)]
    ∧ ((NewEngine "metadata.name").Compare [] [scenarioDoc]).deleted = []
    ∧ ((NewEngine "metadata.name").Compare [] [scenarioDoc]).modified = []
    ∧ (PrepareTemplateData ((NewEngine "metadata.name").Compare [] [scenarioDoc])
        details link vars).Summary = "Plan: 1 to add, 0 to delete, 0 to modify" :=
  ⟨rfl, rfl, rfl, rfl, rfl⟩

/-- C8: the template data is derived from the Result at call time — the
three identity lists are lexicographically sorted, the three counts equal
the mapping sizes, HasChanges holds exactly when some mapping is
nonempty — and equal Results (and auxiliary inputs) give identical
TemplateData. -/
theorem template_data_spec (r : Result) (details link : String)
    (vars : List (String × String)) (r2 : Result) (h : r = r2) :
    List.Sorted (fun a b => a ≤ b) (PrepareTemplateData r details link vars).AddedList
    ∧ List.Sorted (fun a b => a ≤ b) (PrepareTemplateData r details link vars).DeletedList
    ∧ List.Sorted (fun a b => a ≤ b) (PrepareTemplateData r details link vars).ModifiedList
    ∧ (PrepareTemplateData r details link vars).Added = r.added.length
    ∧ (PrepareTemplateData r details link vars).Deleted = r.deleted.length
    ∧ (PrepareTemplateData r details link vars).Modified = r.modified.length
    ∧ ((PrepareTemplateData r details link vars).HasChanges = true
        ↔ (r.added ≠ [] ∨ r.deleted ≠ [] ∨ r.modified ≠ []))
    ∧ PrepareTemplateData r details link vars = PrepareTemplateData r2 details link vars := by
  subst h
  refine ⟨?_, ?_, ?_, rfl, rfl, rfl, ?_, rfl⟩
  · exact List.sorted_insertionSort _ _
  · exact List.sorted_insertionSort _ _
  · exact List.sorted_insertionSort _ _
  · show HasDifferences r = true ↔ _
    rcases r with ⟨a, d, m⟩
    rcases a <;> rcases d <;> rcases m <;> simp [HasDifferences]

theorem template_data_spec_witness :
    List.Sorted (fun a b => a ≤ b) (PrepareTemplateData oneAddedResult "d" "l" []).AddedList
    ∧ List.Sorted (fun a b => a ≤ b) (PrepareTemplateData oneAddedResult "d" "l" []).DeletedList
    ∧ List.Sorted (fun a b => a ≤ b) (PrepareTemplateData oneAddedResult "d" "l" []).ModifiedList
    ∧ (PrepareTemplateData oneAddedResult "d" "l" []).Added = oneAddedResult.added.length
    ∧ (PrepareTemplateData oneAddedResult "d" "l" []).Deleted = oneAddedResult.deleted.length
    ∧ (PrepareTemplateData oneAddedResult "d" "l" []).Modified = oneAddedResult.modified.length
    ∧ ((PrepareTemplateData oneAddedResult "d" "l" []).HasChanges = true
        ↔ (oneAddedResult.added ≠ [] ∨ oneAddedResult.deleted ≠ [] ∨ oneAddedResult.modified ≠ []))
    ∧ PrepareTemplateData oneAddedResult "d" "l" [] = PrepareTemplateData oneAddedResult "d" "l" [] :=
  template_data_spec oneAddedResult "d" "l" [] oneAddedResult rfl

/-- C10 counterexample: AddLabel called with an empty label succeeds
without validating the repository string, so a repository with two
slashes is accepted, contradicting the claim that every repo string
without exactly one slash produces an invalid-repository-format error. -/
theorem addLabel_accepts_malformed_repo :
    "a/b/c".data.count '/' = 2
    ∧ AddLabel "token123" stubLabelApi "a/b/c" 7 "" = Except.ok ()
    ∧ isInvalidRepoError (AddLabel "token123" stubLabelApi "a/b/c" 7 "") = false :=
  ⟨by decide, rfl, rfl⟩

theorem splitChar_ne_nil (sep : Char) (l : List Char) : splitChar sep l ≠ [] := by
  cases l with
  | nil => simp [splitChar]
  | cons c rest =>
    simp only [splitChar]
    by_cases h : (c == sep) = true
    · simp [h]
    · simp only [h]
      rw [if_neg (by simp [h])]
      cases hr : splitChar sep rest <;> simp

theorem length_splitChar (sep : Char) (l : List Char) :
    (splitChar sep l).length = l.count sep + 1 := by
  induction l with
  | nil => simp [splitChar]
  | cons c rest ih =>
    simp only [splitChar]
    by_cases h : (c == sep) = true
    · rw [if_pos h]
      simp [List.count_cons, h, ih]
    · rw [if_neg (by simp [h])]
      obtain ⟨hh, t, hr⟩ : ∃ hh t, splitChar sep rest = hh :: t := by
        cases hr : splitChar sep rest with
        | nil => exact absurd hr (splitChar_ne_nil sep rest)
        | cons x xs => exact ⟨x, xs, rfl⟩
      rw [hr]
      rw [hr] at ih
      simp [List.count_cons, h] at ih ⊢
      omega

theorem parseRepo_err {repo : String} (h : repo.data.count '/' ≠ 1) :
    parseRepo repo = Except.error (GHError.invalidRepo repo) := by
  have hlen : ((splitChar '/' repo.data).map String.mk).length = repo.data.count '/' + 1 := by
    rw [List.length_map, length_splitChar]
  unfold parseRepo
  cases hl : (splitChar '/' repo.data).map String.mk with
  | nil => rfl
  | cons a t =>
    cases t with
    | nil => rfl
    | cons b t2 =>
      cases t2 with
      | nil =>
        exfalso
        rw [hl] at hlen
        simp at hlen
        omega
      | cons c t3 => rfl

theorem parseRepo_ok {repo : String} (h : repo.data.count '/' = 1) :
    ∃ o n, parseRepo repo = Except.ok (o, n) := by
  have hlen : ((splitChar '/' repo.data).map String.mk).length = 2 := by
    rw [List.length_map, length_splitChar, h]
  obtain ⟨a, b, hl⟩ := List.length_eq_two.mp hlen
  exact ⟨a, b, by simp [parseRepo, hl]⟩

/-- C10 amended: given a nonempty token, PostComment on any input,
AddLabel with a nonempty label, and AddLabels with at least one nonempty
label report the invalid-repository-format error exactly when the repo
string does not contain exactly one slash (and never from the API path),
while the degenerate string "/" (empty owner and name) is accepted;
AddLabel with an empty label and AddLabels with no nonempty labels return
success without validating the repository at all. -/
theorem repoValidation_amended_spec (token : String)
    (capi : String → String → Int → String → Except String Unit)
    (lapi : String → String → Int → List String → Except String Unit)
    (repo : String) (pr : Int) (body label : String) (labels : List String)
    (htok : token ≠ "") (hlab : label ≠ "")
    (hlabs : labels.any (fun l => l != "") = true) :
    (isInvalidRepoError (PostComment token capi repo pr body) = true ↔ repo.data.count '/' ≠ 1)
    ∧ (isInvalidRepoError (AddLabel token lapi repo pr label) = true ↔ repo.data.count '/' ≠ 1)
    ∧ (isInvalidRepoError (AddLabels token lapi repo pr labels) = true ↔ repo.data.count '/' ≠ 1)
    ∧ parseRepo "/" = Except.ok ("", "") := by
  have hvalid : (labels.filter (fun l => l != "")).isEmpty = false := by
    obtain ⟨l, hl, hlne⟩ := List.any_eq_true.mp hlabs
    have hmem : l ∈ labels.filter (fun l => l != "") := List.mem_filter.mpr ⟨hl, hlne⟩
    cases hf : labels.filter (fun l => l != "") with
    | nil => rw [hf] at hmem; simp at hmem
    | cons x xs => rfl
  have hne : labels.isEmpty = false := by
    cases hL : labels with
    | nil => rw [hL] at hlabs; simp at hlabs
    | cons x xs => rfl
  by_cases hc : repo.data.count '/' = 1
  · obtain ⟨o, n, hok⟩ := parseRepo_ok hc
    refine ⟨?_, ?_, ?_, rfl⟩
    · simp only [PostComment, getClient, if_neg htok, hok, hc]
      cases capi o n pr body <;> simp [isInvalidRepoError]
    · simp only [AddLabel, if_neg hlab, getClient, if_neg htok, hok, hc]
      cases lapi o n pr [label] <;> simp [isInvalidRepoError]
    · simp only [AddLabels, hne, Bool.false_eq_true, if_false, hvalid,
        getClient, if_neg htok, hok, hc]
      cases lapi o n pr (labels.filter (fun l => l != "")) <;> simp [isInvalidRepoError]
  · have herr := parseRepo_err hc
    refine ⟨?_, ?_, ?_, rfl⟩
    · simp [PostComment, getClient, if_neg htok, herr, isInvalidRepoError, hc]
    · simp [AddLabel, if_neg hlab, getClient, if_neg htok, herr, isInvalidRepoError, hc]
    · simp [AddLabels, hne, hvalid, getClient, if_neg htok, herr, isInvalidRepoError, hc]

theorem repoValidation_amended_spec_witness :
    ("t" : String) ≠ ""
    ∧ ("y" : String) ≠ ""
    ∧ ["y"].any (fun l => l != "") = true
    ∧ ((isInvalidRepoError (PostComment "t" stubCommentApi "a/b" 1 "x") = true
          ↔ "a/b".data.count '/' ≠ 1)
      ∧ (isInvalidRepoError (AddLabel "t" stubLabelApi "a/b" 1 "y") = true
          ↔ "a/b".data.count '/' ≠ 1)
      ∧ (isInvalidRepoError (AddLabels "t" stubLabelApi "a/b" 1 ["y"]) = true
          ↔ "a/b".data.count '/' ≠ 1)
      ∧ parseRepo "/" = Except.ok ("", "")) :=
  ⟨by decide, by decide, by decide,
   repoValidation_amended_spec "t" stubCommentApi stubLabelApi "a/b" 1 "x" "y" ["y"]
     (by decide) (by decide) (by decide)⟩

end Yamlcmt
